import Mathlib

/-!
Verification of the `sound_transfer` streaming engine (`streaming.py`)
against its natural-language specification.

The Python source is shallowly embedded: pure fragments become Lean
functions; the effects of the operating system (bind results, socket
receive results, the stop flag) are passed in explicitly as oracles or
event traces.  Machine integers are modelled as `Nat`/`Int` with explicit
wrap-around where the source casts (`astype("int16")`, `astype("int32")`).
-/

namespace SoundTransfer

/-! ## Constants (streaming.py lines 13-15) -/

def PORT_BASE : Nat := 50000

def PORT_SPAN : Nat := 1000

def DEFAULT_PORT : Nat := 50007

/-! ## Pairing-code codec

`_parse_ipv4` (lines 64-79): the `socket.gethostbyname` call is external
name resolution; on failure the host string itself is parsed, which is the
path taken for dotted-quad literals and the one the codec claims range
over.  Python's `int()` is modelled on ASCII digit strings (its fringe
cases - whitespace, sign prefixes, underscores, non-ASCII digits - do not
arise for the dotted-quad octet strings the claims quantify over, and a
string rejected here is rejected by the source as well once the range
check `0 <= v <= 255` is taken into account). -/

def parseDec (s : List Char) : Except String Nat :=
  if s.length ≠ 0 ∧ s.all Char.isDigit then
    .ok (s.foldl (fun acc ch => 10 * acc + (ch.toNat - 48)) 0)
  else
    .error "Invalid IPv4 address"

/-- Python's `ip.split(".")`: splits at every occurrence of `'.'`, keeping
empty pieces. -/
def splitDots (cs : List Char) : List (List Char) :=
  match cs with
  | [] => [[]]
  | c :: rest =>
    if c = '.' then [] :: splitDots rest
    else
      match splitDots rest with
      | [] => [[c]]
      | h :: t => (c :: h) :: t

def parseIPv4 (host : String) : Except String (Nat × Nat × Nat × Nat) :=
  match splitDots host.data with
  | [p1, p2, p3, p4] =>
    match parseDec p1, parseDec p2, parseDec p3, parseDec p4 with
    | .ok o1, .ok o2, .ok o3, .ok o4 =>
      if o1 > 255 ∨ o2 > 255 ∨ o3 > 255 ∨ o4 > 255 then
        .error "Invalid IPv4 address"
      else
        .ok (o1, o2, o3, o4)
    | _, _, _, _ => .error "Invalid IPv4 address"
  | _ => .error "IPv4 address required"

def digitChar (d : Nat) : Char := Char.ofNat (48 + d)

/-- Python's `f"{n:03d}"`: zero-padded to width 3; every call site in the
source passes `n ≤ 999`, where the result is exactly the three decimal
digits. -/
def pad3 (n : Nat) : String :=
  if n < 1000 then
    String.mk [digitChar (n / 100), digitChar (n / 10 % 10), digitChar (n % 10)]
  else
    toString n

/-- Python's `int(...)` applied to a run of ASCII digits. -/
def digitsVal (ds : List Char) : Nat :=
  ds.foldl (fun acc ch => 10 * acc + (ch.toNat - 48)) 0

/-- `encode_pair_code` (lines 94-101).  `port = None` selects
`DEFAULT_PORT`; the offset is range-checked before the host is parsed. -/
def encode_pair_code (host : String) (port : Option Int) : Except String String :=
  let port := port.getD (DEFAULT_PORT : Nat)
  let offset : Int := port - (PORT_BASE : Nat)
  if offset < 0 ∨ (PORT_SPAN : Nat) ≤ offset then
    .error "Port out of range for short codes"
  else
    match parseIPv4 host with
    | .error e => .error e
    | .ok (_, _, c, d) => .ok (pad3 c ++ pad3 d ++ pad3 offset.toNat)

/-- `decode_pair_code` (lines 104-121).  `get_lan_ip()` is external I/O and
is passed in as `localIP` (`none` models an undeterminable LAN IP). -/
def decode_pair_code (code : String) (localIP : Option String) :
    Except String (String × Int) :=
  if code.data.isEmpty then .error "Empty code"
  else
    let digits := code.data.filter Char.isDigit
    if digits.length ≠ 9 then .error "Code must be 9 digits"
    else
      let c := digitsVal (digits.take 3)
      let d := digitsVal ((digits.drop 3).take 3)
      let offset := digitsVal (digits.drop 6)
      if c > 255 ∨ d > 255 then .error "Invalid code"
      else
        match localIP with
        | none => .error "Could not determine local IP"
        | some ip =>
          match parseIPv4 ip with
          | .error e => .error e
          | .ok (a, b, _, _) =>
            .ok (s!"{a}.{b}.{c}.{d}", (PORT_BASE : Nat) + (offset : Int))

/-! ## Listening-socket acquisition (`_bind_server_socket`, lines 124-159)

The operating system's bind(2)+listen(2) outcome on each port is an oracle
`Nat → BindOutcome`: success, a skippable failure (`EADDRINUSE` or
`EACCES`), or any other `OSError` carrying its errno. -/

inductive SkipKind
  | addrInUse
  | accessDenied
deriving DecidableEq

inductive BindOutcome
  | ok
  | skip (k : SkipKind)
  | err (code : Nat)
deriving DecidableEq

inductive BindError
  | skipped (port : Nat) (k : SkipKind)
  | other (port : Nat) (code : Nat)
  | noFree
deriving DecidableEq

/-- One step of the candidate-building loop (lines 137-141): append
`PORT_BASE + offset` unless it is already present. -/
def addCandidate (acc : List Nat) (offset : Nat) : List Nat :=
  let candidate := PORT_BASE + offset
  if candidate ∈ acc then acc else acc ++ [candidate]

/-- `candidates = [DEFAULT_PORT]` extended by the loop over
`range(PORT_SPAN)`. -/
def candidatePorts : List Nat :=
  (List.range PORT_SPAN).foldl addCandidate [DEFAULT_PORT]

/-- The scan loop (lines 143-155): `last` models the `last_error`
variable. A skippable failure is recorded and the scan continues; any
other error is re-raised at once; after an exhausted scan the recorded
error (or `OSError("No free ports available")`) is raised (lines 157-159). -/
def tryBind (oracle : Nat → BindOutcome) :
    List Nat → Option BindError → Except BindError Nat
  | [], lastErr => .error (lastErr.getD .noFree)
  | p :: rest, _lastErr =>
    match oracle p with
    | .ok => .ok p
    | .skip k => tryBind oracle rest (some (.skipped p k))
    | .err c => .error (.other p c)

/-- `_bind_server_socket`: with an explicit port, bind exactly it and let
any failure propagate (lines 131-135); with no port, scan the candidates. -/
def bindServerSocket (oracle : Nat → BindOutcome) (port : Option Nat) :
    Except BindError Nat :=
  match port with
  | some p =>
    match oracle p with
    | .ok => .ok p
    | .skip k => .error (.skipped p k)
    | .err c => .error (.other p c)
  | none => tryBind oracle candidatePorts none

/-! ## WASAPI loopback selection (`_try_wasapi_loopback`, lines 188-190,
and the system-audio branch of `client_worker`, lines 310-327)

`_wasapi_loopback_supported()` probes the audio library and is passed in
as a Bool.  The body of `_try_wasapi_loopback` in the source is only
`if not _wasapi_loopback_supported(): return None` - the intended
`sd.WasapiSettings(loopback=True)` construction sits unreachable after the
`return` statement of `_adjust_input_device` (lines 219-226), so the
supported branch falls off the end of the function and also returns None. -/

def tryWasapiLoopback (supported : Bool) : Option Unit :=
  if ¬ supported then none
  else none

/-- The Windows system-audio device-selection branch of `client_worker`
(lines 311-327).  Result: the `extra_settings` value and the selected
device (`none` = fall through to the default input device). -/
def windowsSystemCapture (supported : Bool) (device : Option Nat)
    (defaultOut : Option Nat) (keywordDevice : Option Nat) :
    Option Unit × Option Nat :=
  match tryWasapiLoopback supported with
  | some settings =>
    let device := match device with
      | none => defaultOut
      | some d => some d
    (some settings, device)
  | none =>
    match device with
    | some d => (none, some d)
    | none =>
      match keywordDevice with
      | some lb => (none, some lb)
      | none => (none, none)

/-! ## Bounded frame queue (`queue.Queue(maxsize=max_queue)`)

A frame is its list of 16-bit samples; its byte length on the wire is
twice its length.  `put_nowait` on a full bounded queue raises
`queue.Full`, which the callback swallows (lines 430-433); a `maxsize ≤ 0`
Python queue is unbounded. -/

def putNowait (maxQueue : Nat) (q : List (List Int)) (f : List Int) :
    List (List Int) :=
  if 0 < maxQueue ∧ maxQueue ≤ q.length then q else q ++ [f]

inductive QOp
  | push (f : List Int)
  | pop

/-- One queue event: the callback's `put_nowait` or the sender thread's
`get` (which pops the front frame and hands it to the network writer). -/
def stepQ (maxQueue : Nat) :
    List (List Int) × List (List Int) → QOp → List (List Int) × List (List Int)
  | (q, out), .push f => (putNowait maxQueue q f, out)
  | ([], out), .pop => ([], out)
  | (f :: q, out), .pop => (q, out ++ [f])

def runQ (maxQueue : Nat) (ops : List QOp) : List (List Int) × List (List Int) :=
  ops.foldl (stepQ maxQueue) ([], [])

def pushesOf : List QOp → List (List Int)
  | [] => []
  | .push f :: ops => f :: pushesOf ops
  | .pop :: ops => pushesOf ops

/-! ## Capture callback and downmix (`callback`, lines 413-433)

`indata` is a `frames × capture_channels` int16 array, modelled row-wise.
`astype("int32")` is exact on int16 samples; the row sum accumulates in
int32 with wrap-around, `// capture_channels` is floor division, and
`astype("int16")` wraps modulo 2^16. -/

def int16wrap (x : Int) : Int := (x + 32768) % 65536 - 32768

def int32wrap (x : Int) : Int := (x + 2147483648) % 4294967296 - 2147483648

def downmixRow (captureChannels : Nat) (row : List Int) : Int :=
  int16wrap ((row.foldl (fun acc x => int32wrap (acc + x)) 0).fdiv captureChannels)

/-- The bytes produced by one callback invocation: the mono downmix when
`capture_channels != network_channels and network_channels == 1`, the raw
interleaved samples otherwise. -/
def callbackData (captureChannels networkChannels : Nat)
    (indata : List (List Int)) : List Int :=
  if captureChannels ≠ networkChannels ∧ networkChannels = 1 then
    indata.map (downmixRow captureChannels)
  else indata.flatten

/-- One invocation of `callback` against the queue: return unchanged if
the stop flag is set, discard the frame if its byte length is not
`block_bytes`, otherwise `put_nowait` (dropping on a full queue). -/
def callback (captureChannels networkChannels blockBytes maxQueue : Nat)
    (stopSet : Bool) (indata : List (List Int)) (q : List (List Int)) :
    List (List Int) :=
  if stopSet then q
  else
    let data := callbackData captureChannels networkChannels indata
    if 2 * data.length ≠ blockBytes then q
    else putNowait maxQueue q data

/-! ## Exact-length receive (`_recv_exact`, lines 478-492)

Each loop iteration samples the stop flag and then observes one socket
event: a receive timeout, an `OSError`, or a chunk of at most the
requested number of bytes (an empty chunk is the peer closing the
connection).  The outer `Option` is `none` when the event trace runs out
before the loop decides (the real loop would still be waiting). -/

inductive RecvEvent
  | timeout
  | oserr
  | chunk (data : List Nat)

def recvExact (nbytes : Nat) :
    List Nat → List (Bool × RecvEvent) → Option (Option (List Nat))
  | acc, [] => if nbytes ≤ acc.length then some (some acc) else none
  | acc, (stop, ev) :: rest =>
    if nbytes ≤ acc.length then some (some acc)
    else if stop then some none
    else
      match ev with
      | .timeout => recvExact nbytes acc rest
      | .oserr => some none
      | .chunk data =>
        if (data.take (nbytes - acc.length)).isEmpty then some none
        else recvExact nbytes (acc ++ data.take (nbytes - acc.length)) rest

/-! ## Receiver worker loop (`server_worker`, lines 533-569)

The accept loop and the per-connection read loop as a step machine.  Each
step consumes the stop flag sampled at the loop head together with the
outcome of the blocking call made there; `_recv_exact` is inlined so the
byte stream threads through the session state. -/

inductive ServerEv
  | acceptTimeout
  | acceptErr
  | acceptConn
  | recvTimeout
  | recvErr
  | recvChunk (data : List Nat)

inductive SrvState
  | listening
  | inSession (acc : List Nat)
  | stopped
deriving DecidableEq

inductive SrvObs
  | accepted
  | wrote (frame : List Nat)
  | connClosed
  | serverStopped
deriving DecidableEq

def srvStep (blockBytes : Nat) :
    SrvState → Bool × ServerEv → SrvState × List SrvObs
  | .stopped, _ => (.stopped, [])
  | .listening, (stop, ev) =>
    if stop then (.stopped, [.serverStopped])
    else
      match ev with
      | .acceptTimeout => (.listening, [])
      | .acceptErr => (.stopped, [.serverStopped])
      | .acceptConn => (.inSession [], [.accepted])
      | _ => (.listening, [])
  | .inSession acc, (stop, ev) =>
    if stop then (.listening, [.connClosed])
    else
      match ev with
      | .recvTimeout => (.inSession acc, [])
      | .recvErr => (.listening, [.connClosed])
      | .recvChunk data =>
        if (data.take (blockBytes - acc.length)).isEmpty then
          (.listening, [.connClosed])
        else
          if blockBytes ≤ (acc ++ data.take (blockBytes - acc.length)).length then
            (.inSession [], [.wrote (acc ++ data.take (blockBytes - acc.length))])
          else (.inSession (acc ++ data.take (blockBytes - acc.length)), [])
      | _ => (.inSession acc, [])

def runSrv (blockBytes : Nat) :
    SrvState → List (Bool × ServerEv) → SrvState × List SrvObs
  | s, [] => (s, [])
  | s, ev :: evs =>
    ((runSrv blockBytes (srvStep blockBytes s ev).1 evs).1,
      (srvStep blockBytes s ev).2 ++
        (runSrv blockBytes (srvStep blockBytes s ev).1 evs).2)

/-- The state invariant of the read loop: a partially accumulated frame is
always strictly shorter than one frame. -/
def srvInv (blockBytes : Nat) : SrvState → Prop
  | .inSession acc => acc.length < blockBytes
  | _ => True

/-! ## Codec helper lemmas -/

theorem parseIPv4_bounds {host : String} {a b c d : Nat}
    (h : parseIPv4 host = .ok (a, b, c, d)) :
    a ≤ 255 ∧ b ≤ 255 ∧ c ≤ 255 ∧ d ≤ 255 := by
  unfold parseIPv4 at h
  split at h
  · split at h
    · split at h
      · exact absurd h (by simp)
      · next hcond =>
        rw [Except.ok.injEq, Prod.mk.injEq, Prod.mk.injEq, Prod.mk.injEq] at h
        omega
    all_goals exact absurd h (by simp)
  · exact absurd h (by simp)

theorem digitChar_isDigit (d : Nat) (h : d ≤ 9) : (digitChar d).isDigit = true := by
  unfold digitChar
  interval_cases d <;> decide

theorem digitChar_toNat (d : Nat) (h : d ≤ 9) : (digitChar d).toNat = 48 + d := by
  unfold digitChar
  interval_cases d <;> decide

theorem pad3_data (n : Nat) (h : n < 1000) :
    (pad3 n).data =
      [digitChar (n / 100), digitChar (n / 10 % 10), digitChar (n % 10)] := by
  simp [pad3, h]

theorem digitsVal_three (x y z : Nat) (hx : x ≤ 9) (hy : y ≤ 9) (hz : z ≤ 9) :
    digitsVal [digitChar x, digitChar y, digitChar z] = 100 * x + 10 * y + z := by
  simp [digitsVal, digitChar_toNat x hx, digitChar_toNat y hy, digitChar_toNat z hz]
  omega

theorem digitsVal_digits (n : Nat) (h : n < 1000) :
    digitsVal [digitChar (n / 100), digitChar (n / 10 % 10), digitChar (n % 10)]
      = n := by
  rw [digitsVal_three _ _ _ (by omega) (by omega) (by omega)]
  omega

theorem encode_ok (host : String) (a b c d : Nat) (port : Int)
    (hhost : parseIPv4 host = .ok (a, b, c, d))
    (hlo : 50000 ≤ port) (hhi : port < 51000) :
    encode_pair_code host (some port) =
      .ok (pad3 c ++ pad3 d ++ pad3 (port - 50000).toNat) := by
  unfold encode_pair_code PORT_BASE PORT_SPAN
  rw [hhost]
  simp only [Option.getD_some]
  rw [if_neg (by push_cast; omega)]
  norm_num

theorem decode_pad3 (c d off : Nat) (hc : c ≤ 255) (hd : d ≤ 255)
    (hoff : off ≤ 999) (lip : String) (a b x y : Nat)
    (hlip : parseIPv4 lip = .ok (a, b, x, y)) :
    decode_pair_code (pad3 c ++ pad3 d ++ pad3 off) (some lip) =
      .ok (s!"{a}.{b}.{c}.{d}", (50000 : Int) + (off : Int)) := by
  have hdata : (pad3 c ++ pad3 d ++ pad3 off).data =
      [digitChar (c / 100), digitChar (c / 10 % 10), digitChar (c % 10),
       digitChar (d / 100), digitChar (d / 10 % 10), digitChar (d % 10),
       digitChar (off / 100), digitChar (off / 10 % 10), digitChar (off % 10)] := by
    rw [String.data_append, String.data_append, pad3_data c (by omega),
      pad3_data d (by omega), pad3_data off (by omega)]
    rfl
  have hfil :
      [digitChar (c / 100), digitChar (c / 10 % 10), digitChar (c % 10),
       digitChar (d / 100), digitChar (d / 10 % 10), digitChar (d % 10),
       digitChar (off / 100), digitChar (off / 10 % 10),
       digitChar (off % 10)].filter Char.isDigit =
      [digitChar (c / 100), digitChar (c / 10 % 10), digitChar (c % 10),
       digitChar (d / 100), digitChar (d / 10 % 10), digitChar (d % 10),
       digitChar (off / 100), digitChar (off / 10 % 10), digitChar (off % 10)] := by
    simp [List.filter, digitChar_isDigit _ (show c / 100 ≤ 9 by omega),
      digitChar_isDigit _ (show c / 10 % 10 ≤ 9 by omega),
      digitChar_isDigit _ (show c % 10 ≤ 9 by omega),
      digitChar_isDigit _ (show d / 100 ≤ 9 by omega),
      digitChar_isDigit _ (show d / 10 % 10 ≤ 9 by omega),
      digitChar_isDigit _ (show d % 10 ≤ 9 by omega),
      digitChar_isDigit _ (show off / 100 ≤ 9 by omega),
      digitChar_isDigit _ (show off / 10 % 10 ≤ 9 by omega),
      digitChar_isDigit _ (show off % 10 ≤ 9 by omega)]
  unfold decode_pair_code
  rw [hdata]
  simp only [List.isEmpty_cons, Bool.false_eq_true, if_false, hfil,
    List.length_cons, List.length_nil, List.take_succ_cons, List.take_zero,
    List.drop_succ_cons, List.drop_zero]
  rw [digitsVal_digits c (by omega), digitsVal_digits d (by omega),
    digitsVal_digits off (by omega)]
  rw [if_neg (by omega), if_neg (by omega)]
  rw [hlip]
  unfold PORT_BASE
  norm_num

/-! ## Claim theorems: pairing-code codec -/

/-- C1: for every IPv4 host and every port in
`[PORT_BASE, PORT_BASE + PORT_SPAN)`,
`decode_pair_code (encode_pair_code host port)` returns the same port and a
host string whose last two octets are the original host's last two octets,
provided the decoding machine's LAN IP is determinable (`some lip`) and its
first two octets `(a, b)` equal the original host's first two octets. -/
theorem c1_pair_code_roundtrip (host lip : String) (a b c d x y : Nat)
    (port : Int) (hhost : parseIPv4 host = .ok (a, b, c, d))
    (hlip : parseIPv4 lip = .ok (a, b, x, y))
    (hlo : 50000 ≤ port) (hhi : port < 51000) :
    ∃ code, encode_pair_code host (some port) = .ok code ∧
      decode_pair_code code (some lip) = .ok (s!"{a}.{b}.{c}.{d}", port) := by
  obtain ⟨_, _, hc, hd⟩ := parseIPv4_bounds hhost
  refine ⟨pad3 c ++ pad3 d ++ pad3 (port - 50000).toNat,
    encode_ok host a b c d port hhost hlo hhi, ?_⟩
  rw [decode_pad3 c d (port - 50000).toNat hc hd (by omega) lip a b x y hlip]
  congr 1
  rw [Prod.mk.injEq]
  refine ⟨rfl, by omega⟩

theorem c1_pair_code_roundtrip_witness :
    ∃ code, encode_pair_code "192.168.1.2" (some 50007) = .ok code ∧
      decode_pair_code code (some "192.168.5.5") = .ok ("192.168.1.2", 50007) :=
  c1_pair_code_roundtrip "192.168.1.2" "192.168.5.5" 192 168 1 2 5 5 50007
    rfl rfl (by omega) (by omega)

/-- C4 counterexample: the code `"000000999"` consists of exactly nine
digits and its third 3-digit group is `999 > 255`, yet `decode_pair_code`
succeeds on it (the source only range-checks the first two groups), so the
claim "it fails for every 9-digit code in which any 3-digit group exceeds
255" is false. -/
theorem c4_offset_group_counterexample :
    decode_pair_code "000000999" (some "10.0.0.5") = .ok ("10.0.0.0", 50999) :=
  rfl

/-- C4 (amended): `decode_pair_code` fails for every input whose
digit-stripped form does not contain exactly 9 digits, and for every
9-digit code in which one of the FIRST TWO 3-digit groups exceeds 255 (the
third group, the port offset, is not range-checked: any value up to 999 is
accepted); given a determinable local LAN IP that parses as IPv4, it
succeeds on every other 9-digit code. -/
theorem c4_decode_failure_domain (code : String) (localIP : Option String) :
    ((code.data.filter Char.isDigit).length ≠ 9 →
      ∃ e, decode_pair_code code localIP = .error e) ∧
    (∀ digits, code.data.filter Char.isDigit = digits → digits.length = 9 →
      255 < digitsVal (digits.take 3) ∨ 255 < digitsVal ((digits.drop 3).take 3) →
      ∃ e, decode_pair_code code localIP = .error e) ∧
    (∀ digits ip a b x y, code.data.filter Char.isDigit = digits →
      digits.length = 9 →
      digitsVal (digits.take 3) ≤ 255 → digitsVal ((digits.drop 3).take 3) ≤ 255 →
      localIP = some ip → parseIPv4 ip = .ok (a, b, x, y) →
      decode_pair_code code localIP =
        .ok (s!"{a}.{b}.{digitsVal (digits.take 3)}.{digitsVal ((digits.drop 3).take 3)}",
          (50000 : Int) + (digitsVal (digits.drop 6) : Int))) := by
  by_cases hemp : code.data.isEmpty
  · rw [List.isEmpty_iff] at hemp
    refine ⟨fun _ => ⟨"Empty code", by simp [decode_pair_code, hemp]⟩, ?_, ?_⟩
    · intro digits hdig hlen _
      rw [hemp] at hdig
      simp at hdig
      simp [hdig] at hlen
    · intro digits ip a b x y hdig hlen _ _ _ _
      rw [hemp] at hdig
      simp at hdig
      simp [hdig] at hlen
  · have hemp' : code.data.isEmpty = false := by
      cases h : code.data.isEmpty
      · rfl
      · exact absurd h hemp
    unfold decode_pair_code
    rw [hemp']
    simp only [Bool.false_eq_true, if_false]
    refine ⟨fun hne => ⟨"Code must be 9 digits", by rw [if_pos hne]⟩, ?_, ?_⟩
    · intro digits hdig hlen hgt
      subst hdig
      rw [if_neg (by omega)]
      exact ⟨"Invalid code", by rw [if_pos (by omega)]⟩
    · intro digits ip a b x y hdig hlen hc hd hip hlip
      subst hdig
      subst hip
      rw [if_neg (by omega), if_neg (by omega)]
      simp only [hlip]
      norm_num [PORT_BASE]

theorem c4_decode_failure_domain_witness :
    decode_pair_code "123045007" (some "10.0.0.5") = .ok ("10.0.123.45", 50007) := by
  have h := (c4_decode_failure_domain "123045007" (some "10.0.0.5")).2.2
    ("123045007".data.filter Char.isDigit) "10.0.0.5" 10 0 0 5 rfl rfl
    (by decide) (by decide) rfl rfl
  exact h

/-- C9: `encode_pair_code` fails for every port outside
`[50000, 51000)` (the port check precedes host parsing, so this holds for
every host string), and succeeds for every valid IPv4 host and every port
inside that range. -/
theorem c9_encode_port_range (host : String) (port : Int) :
    ((port < 50000 ∨ 51000 ≤ port) →
      encode_pair_code host (some port) =
        .error "Port out of range for short codes") ∧
    (∀ a b c d, parseIPv4 host = .ok (a, b, c, d) → 50000 ≤ port →
      port < 51000 →
      encode_pair_code host (some port) =
        .ok (pad3 c ++ pad3 d ++ pad3 (port - 50000).toNat)) := by
  constructor
  · intro h
    unfold encode_pair_code PORT_BASE PORT_SPAN
    simp only [Option.getD_some]
    rw [if_pos (by push_cast; omega)]
  · intro a b c d hhost hlo hhi
    exact encode_ok host a b c d port hhost hlo hhi

theorem c9_encode_port_range_witness :
    encode_pair_code "192.168.1.2" (some 49999) =
        .error "Port out of range for short codes" ∧
      encode_pair_code "192.168.1.2" (some 50001) = .ok "001002001" := by
  constructor
  · exact (c9_encode_port_range "192.168.1.2" 49999).1 (by omega)
  · exact (c9_encode_port_range "192.168.1.2" 50001).2 192 168 1 2 rfl
      (by omega) (by omega)

/-- C10: for every valid IPv4 host, `encode_pair_code` with a missing port
does not fail: it encodes `DEFAULT_PORT = 50007`, producing a code whose
offset group (the last three characters) is `"007"`. -/
theorem c10_encode_none_default (host : String) (a b c d : Nat)
    (hhost : parseIPv4 host = .ok (a, b, c, d)) :
    encode_pair_code host none = .ok (pad3 c ++ pad3 d ++ pad3 7) ∧
    (pad3 c ++ pad3 d ++ pad3 7).data.drop 6 = ['0', '0', '7'] := by
  obtain ⟨_, _, hc, hd⟩ := parseIPv4_bounds hhost
  constructor
  · have hnone : encode_pair_code host none =
        encode_pair_code host (some 50007) := rfl
    rw [hnone, encode_ok host a b c d 50007 hhost (by omega) (by omega)]
    rfl
  · rw [String.data_append, String.data_append, pad3_data c (by omega),
      pad3_data d (by omega), pad3_data 7 (by omega)]
    simp
    exact ⟨by decide, by decide⟩

theorem c10_encode_none_default_witness :
    encode_pair_code "192.168.1.2" none = .ok "001002007" := by
  have h := (c10_encode_none_default "192.168.1.2" 192 168 1 2 rfl).1
  exact h

/-! ## Claim theorems: listening-socket acquisition -/

theorem foldl_addCandidate (ds : List Nat) :
    ∀ acc : List Nat, (ds.map (fun o => PORT_BASE + o)).Nodup →
      ds.foldl addCandidate acc =
        acc ++ (ds.map (fun o => PORT_BASE + o)).filter
          (fun c => decide (c ∉ acc)) := by
  induction ds with
  | nil => intro acc _; simp
  | cons d ds ih =>
    intro acc hnd
    simp only [List.map_cons, List.nodup_cons] at hnd
    obtain ⟨hni, hnd⟩ := hnd
    simp only [List.foldl_cons, List.map_cons, List.filter_cons]
    by_cases hmem : (PORT_BASE + d) ∈ acc
    · have hstep : addCandidate acc d = acc := by simp [addCandidate, hmem]
      rw [hstep, ih acc hnd]
      simp [hmem]
    · have hstep : addCandidate acc d = acc ++ [PORT_BASE + d] := by
        simp [addCandidate, hmem]
      rw [hstep, ih _ hnd]
      have hfc : (ds.map (fun o => PORT_BASE + o)).filter
            (fun c => decide (c ∉ acc ++ [PORT_BASE + d])) =
          (ds.map (fun o => PORT_BASE + o)).filter (fun c => decide (c ∉ acc)) := by
        apply List.filter_congr
        intro x hx
        have hxd : x ≠ PORT_BASE + d := fun h => hni (h ▸ hx)
        simp [List.mem_append, hxd]
      rw [hfc]
      simp [hmem, List.append_assoc]

theorem candidatePorts_eq :
    candidatePorts =
      DEFAULT_PORT :: ((List.range PORT_SPAN).map (fun o => PORT_BASE + o)).filter
        (fun c => decide (c ≠ DEFAULT_PORT)) := by
  unfold candidatePorts
  rw [foldl_addCandidate _ [DEFAULT_PORT]
    (List.Nodup.map (fun a b h => by omega) (List.nodup_range PORT_SPAN))]
  simp only [List.singleton_append, List.mem_singleton]

theorem tryBind_all_skipped (oracle : Nat → BindOutcome) :
    ∀ (ports : List Nat) (lastE : Option BindError),
      (∀ p ∈ ports, ∃ k, oracle p = .skip k) →
      ∃ e, tryBind oracle ports lastE = .error e := by
  intro ports
  induction ports with
  | nil => intro lastE _; exact ⟨_, rfl⟩
  | cons p rest ih =>
    intro lastE hall
    obtain ⟨k, hk⟩ := hall p (by simp)
    rw [show tryBind oracle (p :: rest) lastE =
        tryBind oracle rest (some (.skipped p k)) by simp [tryBind, hk]]
    exact ih _ (fun q hq => hall q (by simp [hq]))

/-- C5: with no explicit port, `_bind_server_socket` tries `DEFAULT_PORT`
first and then every other port of `[PORT_BASE, PORT_BASE + PORT_SPAN)` in
ascending order; a candidate failing with "address in use" or "permission
denied" is skipped, any other OS error propagates immediately, and if
every candidate fails the acquisition raises instead of returning a
socket; with an explicit port it binds exactly that port or propagates the
failure. -/
theorem c5_bind_server_socket (oracle : Nat → BindOutcome) :
    candidatePorts.head? = some DEFAULT_PORT ∧
    List.Pairwise (· < ·) candidatePorts.tail ∧
    (∀ p, p ∈ candidatePorts ↔ PORT_BASE ≤ p ∧ p < PORT_BASE + PORT_SPAN) ∧
    (∀ p rest lastE k, oracle p = .skip k →
      tryBind oracle (p :: rest) lastE =
        tryBind oracle rest (some (.skipped p k))) ∧
    (∀ p rest lastE, oracle p = .ok →
      tryBind oracle (p :: rest) lastE = .ok p) ∧
    (∀ p rest lastE c, oracle p = .err c →
      tryBind oracle (p :: rest) lastE = .error (.other p c)) ∧
    ((∀ p ∈ candidatePorts, ∃ k, oracle p = .skip k) →
      ∃ e, bindServerSocket oracle none = .error e) ∧
    (∀ p, oracle p = .ok → bindServerSocket oracle (some p) = .ok p) ∧
    (∀ p k, oracle p = .skip k →
      bindServerSocket oracle (some p) = .error (.skipped p k)) ∧
    (∀ p c, oracle p = .err c →
      bindServerSocket oracle (some p) = .error (.other p c)) := by
  refine ⟨?_, ?_, ?_, ?_, ?_, ?_, ?_, ?_, ?_, ?_⟩
  · rw [candidatePorts_eq]; rfl
  · rw [candidatePorts_eq, List.tail_cons]
    have hr : List.Pairwise (· < ·)
        ((List.range PORT_SPAN).map (fun o => PORT_BASE + o)) :=
      List.Pairwise.map _ (fun a b h => by omega)
        (List.pairwise_lt_range PORT_SPAN)
    exact (hr.sublist (List.filter_sublist _))
  · intro p
    rw [candidatePorts_eq]
    simp only [List.mem_cons, List.mem_filter, List.mem_map, List.mem_range,
      decide_eq_true_eq]
    constructor
    · rintro (rfl | ⟨⟨o, ho, rfl⟩, _⟩)
      · unfold DEFAULT_PORT PORT_BASE PORT_SPAN; omega
      · unfold PORT_BASE PORT_SPAN at *; omega
    · intro hp
      by_cases hdef : p = DEFAULT_PORT
      · exact .inl hdef
      · refine .inr ⟨⟨p - PORT_BASE, ?_, ?_⟩, hdef⟩ <;> omega
  · intro p rest lastE k hk; simp [tryBind, hk]
  · intro p rest lastE hk; simp [tryBind, hk]
  · intro p rest lastE c hk; simp [tryBind, hk]
  · intro hall; exact tryBind_all_skipped oracle candidatePorts none hall
  · intro p hk; simp [bindServerSocket, hk]
  · intro p k hk; simp [bindServerSocket, hk]
  · intro p c hk; simp [bindServerSocket, hk]

theorem c5_bind_server_socket_witness :
    bindServerSocket (fun _ => .ok) none = .ok 50007 ∧
    bindServerSocket (fun _ => .err 22) (some 50010) =
      .error (.other 50010 22) := by
  constructor
  · have h := (c5_bind_server_socket (fun _ => .ok)).2.2.2.2.1 50007
      (((List.range PORT_SPAN).map (fun o => PORT_BASE + o)).filter
        (fun c => decide (c ≠ DEFAULT_PORT))) none rfl
    have hc : bindServerSocket (fun _ => BindOutcome.ok) none =
        tryBind (fun _ => BindOutcome.ok) candidatePorts none := rfl
    rw [hc, candidatePorts_eq]
    exact h
  · exact (c5_bind_server_socket (fun _ => .err 22)).2.2.2.2.2.2.2.2.2 50010 22 rfl

/-! ## Claim theorems: WASAPI loopback selection -/

/-- C2 (code bug): the claim matches the source's evident intent, but
`_try_wasapi_loopback` returns `None` unconditionally - the
`sd.WasapiSettings(loopback=True)` construction meant to be its tail is
stranded as unreachable code after the `return` statement of
`_adjust_input_device` (lines 219-226).  Consequently the native loopback
extension is never selected, even when the probe reports it available, and
`client_worker` always takes the keyword-search fallback (here: keyword
device 3 is chosen although `supported = true`); the
`"Using WASAPI loopback"` branch of `client_worker` is dead. -/
theorem c2_wasapi_never_selected (supported : Bool)
    (device defaultOut keywordDevice : Option Nat) :
    tryWasapiLoopback supported = none ∧
    (windowsSystemCapture supported device defaultOut keywordDevice).1 = none ∧
    (windowsSystemCapture true none defaultOut (some 3)).2 = some 3 := by
  refine ⟨?_, ?_, ?_⟩
  · cases supported <;> rfl
  · cases supported <;> cases device <;>
      simp [windowsSystemCapture, tryWasapiLoopback] <;>
      cases keywordDevice <;> rfl
  · rfl

/-! ## Claim theorems: bounded frame queue -/

theorem runQ_invariant (N : Nat) (hN : 0 < N) (ops : List QOp) :
    ∀ q out : List (List Int), q.length ≤ N →
      (ops.foldl (stepQ N) (q, out)).1.length ≤ N ∧
      List.Sublist
        ((ops.foldl (stepQ N) (q, out)).2 ++ (ops.foldl (stepQ N) (q, out)).1)
        (out ++ q ++ pushesOf ops) := by
  induction ops with
  | nil =>
    intro q out h
    simp only [List.foldl_nil, pushesOf, List.append_nil]
    exact ⟨h, List.Sublist.refl _⟩
  | cons op ops ih =>
    intro q out h
    cases op with
    | push f =>
      simp only [List.foldl_cons, stepQ, pushesOf]
      by_cases hfull : 0 < N ∧ N ≤ q.length
      · have hstep : putNowait N q f = q := by simp [putNowait, hfull]
        rw [hstep]
        obtain ⟨h1, h2⟩ := ih q out h
        refine ⟨h1, h2.trans ?_⟩
        exact (List.sublist_cons_self f (pushesOf ops)).append_left (out ++ q)
      · have hstep : putNowait N q f = q ++ [f] := by simp [putNowait, hfull]
        rw [hstep]
        have hlen : (q ++ [f]).length ≤ N := by
          simp only [not_and, not_le] at hfull
          simp only [List.length_append, List.length_singleton]
          omega
        obtain ⟨h1, h2⟩ := ih (q ++ [f]) out hlen
        refine ⟨h1, h2.trans ?_⟩
        rw [show out ++ (q ++ [f]) ++ pushesOf ops =
          out ++ q ++ (f :: pushesOf ops) by simp]
    | pop =>
      cases q with
      | nil =>
        simp only [List.foldl_cons, stepQ, pushesOf]
        exact ih [] out (by simp)
      | cons f q =>
        simp only [List.foldl_cons, stepQ, pushesOf]
        have hlen : q.length ≤ N := by simp at h; omega
        obtain ⟨h1, h2⟩ := ih q (out ++ [f]) hlen
        refine ⟨h1, h2.trans ?_⟩
        rw [show out ++ [f] ++ q ++ pushesOf ops =
          out ++ (f :: q) ++ pushesOf ops by simp]

/-- C6: against a queue of capacity `N > 0`, the callback's `put_nowait`
never blocks (it is a total function); on a full queue the new frame is
dropped and the queue is unchanged; the queue length never exceeds `N`;
and the frames the network writer receives, followed by those still
queued, form an order-preserving subsequence of the frames produced. -/
theorem c6_queue_bounded_ordered (N : Nat) (hN : 0 < N) (ops : List QOp) :
    (∀ q f, q.length = N → putNowait N q f = q) ∧
    (runQ N ops).1.length ≤ N ∧
    List.Sublist ((runQ N ops).2 ++ (runQ N ops).1) (pushesOf ops) := by
  refine ⟨fun q f h => by simp [putNowait, h, hN], ?_, ?_⟩
  · exact (runQ_invariant N hN ops [] [] (by simp)).1
  · have h := (runQ_invariant N hN ops [] [] (by simp)).2
    simpa using h

theorem c6_queue_bounded_ordered_witness :
    (runQ 1 [QOp.push [5], QOp.push [6], QOp.pop]).1.length ≤ 1 ∧
    List.Sublist
      ((runQ 1 [QOp.push [5], QOp.push [6], QOp.pop]).2 ++
        (runQ 1 [QOp.push [5], QOp.push [6], QOp.pop]).1)
      (pushesOf [QOp.push [5], QOp.push [6], QOp.pop]) := by
  have h := c6_queue_bounded_ordered 1 (by omega)
    [QOp.push [5], QOp.push [6], QOp.pop]
  exact ⟨h.2.1, h.2.2⟩

/-! ## Claim theorems: capture callback -/

/-- C7: the callback enqueues only byte buffers of exactly
`block_bytes = block_size * network_channels * 2` bytes (a frame of
samples `f` occupies `2 * f.length` bytes); every produced buffer whose
byte length differs is discarded, leaving the queue unchanged, so it is
never queued and never sent. -/
theorem c7_callback_frame_size (captureChannels networkChannels blockBytes
    maxQueue : Nat) (stopSet : Bool) (indata : List (List Int))
    (q : List (List Int)) :
    (∀ f ∈ callback captureChannels networkChannels blockBytes maxQueue
        stopSet indata q, f ∈ q ∨ 2 * f.length = blockBytes) ∧
    (2 * (callbackData captureChannels networkChannels indata).length ≠
        blockBytes →
      callback captureChannels networkChannels blockBytes maxQueue
        stopSet indata q = q) := by
  constructor
  · intro f hf
    simp only [callback] at hf
    split at hf
    · exact .inl hf
    · split at hf
      · exact .inl hf
      · next hlen =>
        simp only [putNowait] at hf
        split at hf
        · exact .inl hf
        · rcases List.mem_append.mp hf with hmem | hmem
          · exact .inl hmem
          · right
            rw [List.mem_singleton] at hmem
            subst hmem
            omega
  · intro h
    simp only [callback]
    split
    · rfl
    · rfl


theorem c7_callback_frame_size_witness :
    ([7] : List Int) ∈ ([] : List (List Int)) ∨ 2 * ([7] : List Int).length = 2 :=
  (c7_callback_frame_size 1 1 2 4 false [[7]] []).1 [7] (by decide)

/-! ## Claim theorems: channel downmix -/

/-- C3 counterexample: with 4 capture channels and a requested network
channel count of 2 (more captured channels than requested), the callback
does NOT downmix: the raw 4-channel frame fails the size check
(`8 bytes ≠ block_bytes = 4`) and is discarded, so the queue stays empty
instead of receiving the claimed downmixed 2-channel frame. -/
theorem c3_downmix_counterexample :
    callback 4 2 4 8 false [[1, 1, 1, 1]] [] = [] ∧
    callback 4 2 4 8 false [[1, 1, 1, 1]] [] ≠ [[1, 1]] := by
  constructor
  · rfl
  · intro h
    simp [callback, callbackData, putNowait] at h

theorem int32wrap_eq_self (x : Int) (h1 : -2147483648 ≤ x)
    (h2 : x ≤ 2147483647) : int32wrap x = x := by
  unfold int32wrap
  omega

theorem int16wrap_eq_self (x : Int) (h1 : -32768 ≤ x) (h2 : x ≤ 32767) :
    int16wrap x = x := by
  unfold int16wrap
  omega

theorem downmixRow_two (x y : Int) (hx1 : -32768 ≤ x) (hx2 : x ≤ 32767)
    (hy1 : -32768 ≤ y) (hy2 : y ≤ 32767) :
    downmixRow 2 [x, y] = (x + y).fdiv 2 := by
  unfold downmixRow
  simp only [List.foldl_cons, List.foldl_nil]
  rw [int32wrap_eq_self (0 + x) (by omega) (by omega),
    int32wrap_eq_self (0 + x + y) (by omega) (by omega)]
  rw [show ((2 : Nat) : Int) = (2 : Int) by norm_num]
  rw [Int.fdiv_eq_ediv _ (by omega), Int.fdiv_eq_ediv _ (by omega)]
  rw [int16wrap_eq_self _ (by omega) (by omega)]
  rw [show (0 : Int) + x + y = x + y by ring]

/-- C3 (amended): the downmix happens exactly when the requested network
channel count is 1 (the source's guard is
`capture_channels != network_channels and network_channels == 1`; with a
requested count of 2 or more, same-sized frames pass through raw and
mismatched frames are discarded - see the counterexample).  With 2 capture
channels and requested count 1, every queued frame has byte length
`block_size * 1 * 2` and each mono sample produced from an interleaved
pair `(x, y)` of int16 samples is `⌊(x + y) / 2⌋` in exact integer
arithmetic. -/
theorem c3_downmix_mono (blocksize maxQueue : Nat) (q : List (List Int))
    (indata : List (List Int)) (hrows : indata.length = blocksize)
    (hrow : ∀ row ∈ indata,
      row.length = 2 ∧ ∀ v ∈ row, -32768 ≤ v ∧ v ≤ 32767)
    (hq : q.length < maxQueue) :
    callback 2 1 (blocksize * 1 * 2) maxQueue false indata q =
      q ++ [indata.map (fun row => row.sum.fdiv 2)] ∧
    (∀ x y : Int, -32768 ≤ x → x ≤ 32767 → -32768 ≤ y → y ≤ 32767 →
      downmixRow 2 [x, y] = (x + y).fdiv 2) ∧
    2 * (indata.map (downmixRow 2)).length = blocksize * 1 * 2 := by
  have hmap : indata.map (downmixRow 2) =
      indata.map (fun row => row.sum.fdiv 2) := by
    apply List.map_congr_left
    intro row hmem
    obtain ⟨hlen, hvals⟩ := hrow row hmem
    match row, hlen with
    | [x, y], _ =>
      obtain ⟨hx1, hx2⟩ := hvals x (by simp)
      obtain ⟨hy1, hy2⟩ := hvals y (by simp)
      rw [downmixRow_two x y hx1 hx2 hy1 hy2]
      simp
  have hdata : callbackData 2 1 indata = indata.map (downmixRow 2) := by
    unfold callbackData
    rw [if_pos (by norm_num)]
  refine ⟨?_, fun x y hx1 hx2 hy1 hy2 => downmixRow_two x y hx1 hx2 hy1 hy2, ?_⟩
  · unfold callback
    rw [if_neg (by simp), hdata, hmap]
    rw [if_neg (by rw [List.length_map, hrows]; omega)]
    unfold putNowait
    rw [if_neg (by omega)]
  · rw [List.length_map, hrows]
    omega

theorem c3_downmix_mono_witness :
    callback 2 1 2 4 false [[10, 5]] [] = [[7]] := by
  have h := (c3_downmix_mono 1 4 [] [[10, 5]] rfl
    (by intro row hmem; simp at hmem; subst hmem; refine ⟨rfl, ?_⟩;
        intro v hv; simp at hv; rcases hv with rfl | rfl <;> omega)
    (by decide)).1
  simpa using h

/-! ## Claim theorems: exact-length receive and receiver loop -/

theorem recvExact_full_or_fail (nbytes : Nat) :
    ∀ (trace : List (Bool × RecvEvent)) (acc buf : List Nat),
      acc.length ≤ nbytes → recvExact nbytes acc trace = some (some buf) →
      buf.length = nbytes := by
  intro trace
  induction trace with
  | nil =>
    intro acc buf hle h
    rw [recvExact.eq_def] at h
    dsimp only at h
    split at h
    · next hge =>
      simp only [Option.some.injEq] at h
      subst h
      omega
    · exact absurd h (by simp)
  | cons e rest ih =>
    intro acc buf hle h
    obtain ⟨stop, ev⟩ := e
    rw [recvExact.eq_def] at h
    dsimp only at h
    split at h
    · next hge =>
      simp only [Option.some.injEq] at h
      subst h
      omega
    · next hlt =>
      split at h
      · exact absurd h (by simp)
      · cases ev with
        | timeout => exact ih acc buf hle h
        | oserr => exact absurd h (by simp)
        | chunk data =>
          dsimp only at h
          split at h
          · exact absurd h (by simp)
          · refine ih _ buf ?_ h
            rw [List.length_append, List.length_take]
            omega

theorem srvStep_sound (blockBytes : Nat) (hpos : 0 < blockBytes)
    (s : SrvState) (ev : Bool × ServerEv) (hinv : srvInv blockBytes s) :
    srvInv blockBytes (srvStep blockBytes s ev).1 ∧
    ∀ f, SrvObs.wrote f ∈ (srvStep blockBytes s ev).2 →
      f.length = blockBytes := by
  obtain ⟨stop, e⟩ := ev
  cases s with
  | stopped => simp [srvStep, srvInv]
  | listening =>
    cases stop
    · cases e <;> simp [srvStep, srvInv, hpos]
    · simp [srvStep, srvInv]
  | inSession acc =>
    have hacc : acc.length < blockBytes := hinv
    cases stop
    · cases e with
      | recvChunk data =>
        simp only [srvStep]
        rw [if_neg (by simp)]
        split
        · simp [srvInv]
        · next hne =>
          split
          · next hge =>
            refine ⟨by simp [srvInv, hpos], ?_⟩
            intro f hf
            simp only [List.mem_singleton, SrvObs.wrote.injEq] at hf
            subst hf
            rw [List.length_append, List.length_take] at hge ⊢
            omega
          · next hlt =>
            refine ⟨?_, by simp⟩
            simp only [srvInv]
            omega
      | acceptTimeout => simp [srvStep, srvInv, hacc]
      | acceptErr => simp [srvStep, srvInv, hacc]
      | acceptConn => simp [srvStep, srvInv, hacc]
      | recvTimeout => simp [srvStep, srvInv, hacc]
      | recvErr => simp [srvStep, srvInv]
    · simp [srvStep, srvInv]

theorem runSrv_wrote (blockBytes : Nat) (hpos : 0 < blockBytes) :
    ∀ (evs : List (Bool × ServerEv)) (s : SrvState), srvInv blockBytes s →
      ∀ f, SrvObs.wrote f ∈ (runSrv blockBytes s evs).2 →
        f.length = blockBytes := by
  intro evs
  induction evs with
  | nil =>
    intro s _ f hf
    simp [runSrv] at hf
  | cons ev evs ih =>
    intro s hinv f hf
    rw [runSrv.eq_def] at hf
    dsimp only at hf
    simp only [List.mem_append] at hf
    obtain ⟨h1, h2⟩ := srvStep_sound blockBytes hpos s ev hinv
    rcases hf with hf | hf
    · exact h2 f hf
    · exact ih _ h1 f hf

/-- C8: `_recv_exact` returns either a buffer of exactly `nbytes` bytes or
the failure value `none`, never a partial frame: partial chunks are
accumulated, a receive timeout retries, and the stop signal, an `OSError`
or a closed connection (empty chunk) end the read with the failure value;
in `server_worker`, every frame written to playback has exactly
`blockBytes` bytes, a failed read closes the session and returns the loop
to `listening`, from where a new connection is accepted - unless the stop
flag is observed, which ends the loop. -/
theorem c8_recv_exact_session (nbytes blockBytes : Nat) :
    (∀ (trace : List (Bool × RecvEvent)) (acc buf : List Nat),
      acc.length ≤ nbytes → recvExact nbytes acc trace = some (some buf) →
      buf.length = nbytes) ∧
    (∀ (acc : List Nat) (rest : List (Bool × RecvEvent)),
      acc.length < nbytes →
      recvExact nbytes acc ((false, .timeout) :: rest) =
        recvExact nbytes acc rest) ∧
    (∀ (acc : List Nat) (ev : RecvEvent) (rest : List (Bool × RecvEvent)),
      acc.length < nbytes →
      recvExact nbytes acc ((true, ev) :: rest) = some none) ∧
    (∀ (acc : List Nat) (rest : List (Bool × RecvEvent)),
      acc.length < nbytes →
      recvExact nbytes acc ((false, .oserr) :: rest) = some none ∧
      recvExact nbytes acc ((false, .chunk []) :: rest) = some none) ∧
    (0 < blockBytes →
      ∀ (evs : List (Bool × ServerEv)) (f : List Nat),
        SrvObs.wrote f ∈ (runSrv blockBytes .listening evs).2 →
        f.length = blockBytes) ∧
    (∀ acc, srvStep blockBytes (.inSession acc) (false, .recvErr) =
      (.listening, [.connClosed])) ∧
    (srvStep blockBytes .listening (false, .acceptConn) =
      (.inSession [], [.accepted])) ∧
    (∀ ev, srvStep blockBytes .listening (true, ev) =
      (.stopped, [.serverStopped])) := by
  refine ⟨recvExact_full_or_fail nbytes, ?_, ?_, ?_, ?_, ?_, ?_, ?_⟩
  · intro acc rest hlt
    rw [recvExact.eq_def]
    dsimp only
    rw [if_neg (by omega)]
    rfl
  · intro acc ev rest hlt
    rw [recvExact.eq_def]
    dsimp only
    rw [if_neg (by omega)]
    rfl
  · intro acc rest hlt
    constructor
    · rw [recvExact.eq_def]
      dsimp only
      rw [if_neg (by omega)]
      rfl
    · rw [recvExact.eq_def]
      dsimp only
      rw [if_neg (by omega)]
      simp
  · intro hpos evs f hf
    exact runSrv_wrote blockBytes hpos evs .listening trivial f hf
  · intro acc
    simp [srvStep]
  · simp [srvStep]
  · intro ev
    simp [srvStep]

theorem c8_recv_exact_session_witness :
    ([1, 2, 3, 4] : List Nat).length = 4 :=
  (c8_recv_exact_session 4 2).1
    [(false, .chunk [1, 2]), (false, .timeout), (false, .chunk [3, 4, 9])]
    [] [1, 2, 3, 4] (by simp) rfl

end SoundTransfer
